import Mathlib

/-!
Shallow embedding of `src/main.py` (equilibrium-statistic calculator) over ℚ,
with exact real-number semantics as specified.  The iteration engine is
embedded as a fuel-bounded loop; the Python `ZeroDivisionError` raised by
`calculate_mean` on an empty dataset is modelled by the explicit
`Outcome.raised` constructor.
-/

namespace EquilibriumStatistic

/-- A recorded iteration entry: the Python list `[mean, median, mode]`. -/
abbrev Triple := List ℚ

/-- Python `calculate_mean(data)`: `sum(data) / len(data)`.  (In Python an empty
dataset raises `ZeroDivisionError`; the engine models that raise explicitly,
so the value of this total function at `[]` is junk and never relied on.) -/
def calculate_mean (data : List ℚ) : ℚ :=
  data.sum / (data.length : ℚ)

/-- Python `calculate_median(data)`: Python `statistics.median` — sort the data;
odd count takes the middle element, even count averages the two middles. -/
def calculate_median (data : List ℚ) : ℚ :=
  let sorted := data.mergeSort (fun a b => decide (a ≤ b))
  let n := sorted.length
  if n % 2 = 1 then sorted.getD (n / 2) 0
  else (sorted.getD (n / 2 - 1) 0 + sorted.getD (n / 2) 0) / 2

/-- Python `calculate_mode(data)`: count frequencies; if the maximum count is 1
return the mean; otherwise return the smallest value attaining the maximum
count.  The `none` branches of `max?`/`min?` correspond to exceptions of the
Python try-block, which the `except` clause converts into the mean fallback. -/
def calculate_mode (data : List ℚ) : ℚ :=
  match (data.dedup.map (fun v => data.count v)).max? with
  | none => calculate_mean data
  | some max_count =>
    if max_count = 1 then calculate_mean data
    else
      match (data.dedup.filter (fun v => decide (data.count v = max_count))).min? with
      | none => calculate_mean data
      | some m => m

/-- Fallible model of `calculate_mean`: `none` exactly when Python raises
`ZeroDivisionError` (empty dataset). -/
def calculate_mean_opt (data : List ℚ) : Option ℚ :=
  if data.length = 0 then none else some (data.sum / (data.length : ℚ))

/-- Fallible model of `calculate_mode`: the try-block body may fail
(`max` or `min` of an empty sequence raises `ValueError`); any such failure
is routed by the `except` clause to the mean fallback, which itself may
raise on an empty dataset. -/
def calculate_mode_opt (data : List ℚ) : Option ℚ :=
  let tryBody : Option ℚ :=
    match (data.dedup.map (fun v => data.count v)).max? with
    | none => none
    | some max_count =>
      if max_count = 1 then calculate_mean_opt data
      else (data.dedup.filter (fun v => decide (data.count v = max_count))).min?
  match tryBody with
  | some r => some r
  | none => calculate_mean_opt data

/-- Python `check_stagnation(iteration_history, stagnation_window)`: true iff the
history has at least `stagnation_window` entries and the last
`stagnation_window` entries are all equal to the first of them. -/
def check_stagnation (iteration_history : List Triple) (stagnation_window : ℕ) : Bool :=
  if iteration_history.length < stagnation_window then false
  else
    let recent := iteration_history.drop (iteration_history.length - stagnation_window)
    let first := recent.headD []
    (recent.drop 1).all (fun x => x == first)

/-- Python `check_convergence(values, epsilon)`: vacuously true below length 2,
else `max(values) - min(values) <= epsilon`. -/
def check_convergence (values : List ℚ) (epsilon : ℚ) : Bool :=
  if values.length < 2 then true
  else
    let min_val := values.min?.getD 0
    let max_val := values.max?.getD 0
    decide (max_val - min_val ≤ epsilon)

/-- Python `calculate_statistics(data)`: the (mean, median, mode) of a dataset. -/
def calculate_statistics (data : List ℚ) : ℚ × ℚ × ℚ :=
  (calculate_mean data, calculate_median data, calculate_mode data)

/-- The `new_data = [mean, median, mode]` list built each round. -/
def newTriple (data : List ℚ) : Triple :=
  [(calculate_statistics data).1, (calculate_statistics data).2.1,
   (calculate_statistics data).2.2]

/-- The Python `epsilon` argument: a number, or the string sentinel `'*'`
selecting stagnation-only mode. -/
inductive Epsilon where
  | val (e : ℚ)
  | star
deriving DecidableEq, Repr

/-- Python `stagnation_only = (epsilon == '*')`. -/
def stagnation_only : Epsilon → Bool
  | .star => true
  | .val _ => false

/-- The numeric value carried by a non-sentinel epsilon (the sentinel case
is never consulted by the engine: the convergence branch is short-circuited
away in stagnation-only mode). -/
def epsilonValue : Epsilon → ℚ
  | .star => 0
  | .val e => e

/-- Observable result of a run: an uncaught exception, or a normal return
`(value, history)` tagged with which termination branch produced it (the
two branches print different banners, so they are observably distinct). -/
inductive Outcome where
  | raised
  | converged (value : ℚ) (history : List Triple)
  | stagnated (value : ℚ) (history : List Triple)
deriving DecidableEq, Repr

/-- Result of one round of the while-loop body. -/
inductive StepResult where
  | done (o : Outcome)
  | next (data : List ℚ) (history : List Triple)
deriving DecidableEq, Repr

/-- The inline truncation on stagnation:
`if len(h) >= 1000: h = h[:-999]`. -/
def truncateHist (h : List Triple) : List Triple :=
  if 1000 ≤ h.length then h.take (h.length - 999) else h

/-- One round of the `while True` body of `equilibrium_statistic`: compute
the triple (raising if the current dataset is empty), append it to the
history, check convergence (skipped in stagnation-only mode), then check
stagnation, else continue with the triple as the next dataset. -/
def engineStep (epsilon : Epsilon) (current_data : List ℚ)
    (iteration_history : List Triple) : StepResult :=
  if current_data.isEmpty then .done .raised
  else
    let new_data := newTriple current_data
    let history := iteration_history ++ [new_data]
    if !stagnation_only epsilon && check_convergence new_data (epsilonValue epsilon) then
      .done (.converged (new_data.sum / (new_data.length : ℚ)) history)
    else if check_stagnation history 1000 then
      .done (.stagnated (new_data.sum / (new_data.length : ℚ)) (truncateHist history))
    else .next new_data history

/-- The engine loop, fuel-bounded (`none` = fuel exhausted, the Python loop
would still be running). -/
def runLoop (epsilon : Epsilon) : ℕ → List ℚ → List Triple → Option Outcome
  | 0, _, _ => none
  | fuel + 1, current_data, iteration_history =>
    match engineStep epsilon current_data iteration_history with
    | .done o => some o
    | .next d h => runLoop epsilon fuel d h

/-- Python `equilibrium_statistic(initial_data, epsilon)`, fuel-bounded. -/
def equilibrium_statistic (initial_data : List ℚ) (epsilon : Epsilon)
    (fuel : ℕ) : Option Outcome :=
  runLoop epsilon fuel initial_data []

/-- Instrumented loop: additionally returns the iteration counter and the
full (untruncated) history at termination.  `runLoop` is its projection
(`runLoopI_fst`). -/
def runLoopI (epsilon : Epsilon) :
    ℕ → List ℚ → List Triple → ℕ → Option (Outcome × ℕ × List Triple)
  | 0, _, _, _ => none
  | fuel + 1, current_data, iteration_history, iteration =>
    match engineStep epsilon current_data iteration_history with
    | .done .raised => some (.raised, iteration, iteration_history)
    | .done (.converged v h) =>
        some (.converged v h, iteration + 1, iteration_history ++ [newTriple current_data])
    | .done (.stagnated v h) =>
        some (.stagnated v h, iteration + 1, iteration_history ++ [newTriple current_data])
    | .next d h => runLoopI epsilon fuel d h (iteration + 1)

/-- Number of trailing entries of a (reversed) history equal to `d`. -/
def trailingRun (d : Triple) : List Triple → ℕ
  | [] => 0
  | a :: l => if a = d then trailingRun d l + 1 else 0

/-- Number of trailing entries of `h` equal to `d`. -/
def trailingCount (d : Triple) (h : List Triple) : ℕ :=
  trailingRun d h.reverse

/-! ### Helper lemmas: `min?` / `max?` over a linear order -/

theorem max?_eq_some_iff_lin {α : Type*} [LinearOrder α] {l : List α} {a : α} :
    l.max? = some a ↔ a ∈ l ∧ ∀ b ∈ l, b ≤ a := by
  have : Std.Antisymm (α := α) (· ≤ ·) := ⟨fun h h2 => le_antisymm h h2⟩
  exact List.max?_eq_some_iff (fun _ => le_refl _) max_choice (fun _ _ _ => max_le_iff)

theorem min?_eq_some_iff_lin {α : Type*} [LinearOrder α] {l : List α} {a : α} :
    l.min? = some a ↔ a ∈ l ∧ ∀ b ∈ l, a ≤ b := by
  have : Std.Antisymm (α := α) (· ≤ ·) := ⟨fun h h2 => le_antisymm h h2⟩
  exact List.min?_eq_some_iff (fun _ => le_refl _) min_choice (fun _ _ _ => le_min_iff)

theorem exists_max?_of_ne_nil {α : Type*} [Max α] {l : List α} (h : l ≠ []) :
    ∃ a, l.max? = some a := by
  cases e : l.max? with
  | none => exact absurd (List.max?_eq_none_iff.mp e) h
  | some a => exact ⟨a, rfl⟩

theorem exists_min?_of_ne_nil {α : Type*} [Min α] {l : List α} (h : l ≠ []) :
    ∃ a, l.min? = some a := by
  cases e : l.min? with
  | none => exact absurd (List.min?_eq_none_iff.mp e) h
  | some a => exact ⟨a, rfl⟩

/-! ### Characterization of the stagnation predicate -/

/-- Predicate `check_stagnation hist 1000` is true exactly when the history has at
least 1000 entries and its last 1000 entries are all one and the same
triple. -/
theorem stagnation_char (hist : List Triple) :
    check_stagnation hist 1000 = true ↔
      1000 ≤ hist.length ∧ ∃ t, ∀ x ∈ hist.drop (hist.length - 1000), x = t := by
  unfold check_stagnation
  by_cases hl : hist.length < 1000
  · rw [if_pos hl]
    constructor
    · intro h; simp at h
    · rintro ⟨h, -⟩; omega
  · rw [if_neg hl]
    have hlen : (hist.drop (hist.length - 1000)).length = 1000 := by
      rw [List.length_drop]; omega
    cases hrec : hist.drop (hist.length - 1000) with
    | nil => rw [hrec] at hlen; simp at hlen
    | cons a l =>
      simp only [List.drop_succ_cons, List.drop_zero, List.headD_cons, List.all_eq_true,
        beq_iff_eq]
      constructor
      · intro hall
        refine ⟨by omega, a, ?_⟩
        intro x hx
        rcases List.mem_cons.mp hx with h | h
        · exact h
        · exact hall x h
      · rintro ⟨-, t, ht⟩
        intro x hx
        have hat : a = t := ht a (List.mem_cons_self a l)
        have hxt : x = t := ht x (List.mem_cons_of_mem a hx)
        rw [hxt, hat]

/-- C5: the stagnation predicate with window 1000 returns true iff the
history has at least 1000 entries and its last 1000 entries are exactly
identical triples; any history with fewer than 1000 entries yields false,
and so does a history whose trailing 999 entries are identical but whose
1000th-from-last entry differs. -/
theorem check_stagnation_spec (hist : List Triple) :
    (check_stagnation hist 1000 = true ↔
      1000 ≤ hist.length ∧ ∃ t, ∀ x ∈ hist.drop (hist.length - 1000), x = t)
    ∧ (hist.length < 1000 → check_stagnation hist 1000 = false)
    ∧ (∀ t t' : Triple, t ≠ t' →
        check_stagnation (hist ++ t' :: List.replicate 999 t) 1000 = false) := by
  refine ⟨stagnation_char hist, fun h => by unfold check_stagnation; rw [if_pos h], ?_⟩
  intro t t' hne
  cases hb : check_stagnation (hist ++ t' :: List.replicate 999 t) 1000 with
  | false => rfl
  | true =>
    exfalso
    obtain ⟨hlen, t₀, ht₀⟩ := (stagnation_char _).mp hb
    have hlen' : (hist ++ t' :: List.replicate 999 t).length = hist.length + 1000 := by
      rw [List.length_append, List.length_cons, List.length_replicate]
    have hdrop : (hist ++ t' :: List.replicate 999 t).drop
        ((hist ++ t' :: List.replicate 999 t).length - 1000) = t' :: List.replicate 999 t := by
      rw [hlen']
      have : hist.length + 1000 - 1000 = hist.length := by omega
      rw [this, List.drop_left]
    rw [hdrop] at ht₀
    have h1 : t' = t₀ := ht₀ t' (List.mem_cons_self _ _)
    have h2 : t = t₀ := ht₀ t (List.mem_cons_of_mem _ (List.mem_replicate.mpr ⟨by omega, rfl⟩))
    exact hne (h2.trans h1.symm)

/-- Witness for C5 at a concrete history: 999 identical trailing triples
preceded by a different one do not stagnate. -/
theorem check_stagnation_spec_witness :
    check_stagnation (([] : List Triple) ++ [0, 0, 0] :: List.replicate 999 [7, 7, 7]) 1000
      = false :=
  (check_stagnation_spec []).2.2 [7, 7, 7] [0, 0, 0] (by norm_num)

/-- C6: the convergence predicate is vacuously true below length 2, and for
length ≥ 2 it is true iff `max(values) - min(values) ≤ epsilon`; on the
triple (5.0, 5.0004, 5.0002) it is true at ε = 0.001 and false at
ε = 0.0001. -/
theorem check_convergence_spec (values : List ℚ) (epsilon : ℚ) :
    (values.length < 2 → check_convergence values epsilon = true)
    ∧ (2 ≤ values.length →
        ∃ mx mn, values.max? = some mx ∧ values.min? = some mn ∧ mx ∈ values ∧ mn ∈ values
          ∧ (∀ b ∈ values, mn ≤ b ∧ b ≤ mx)
          ∧ (check_convergence values epsilon = true ↔ mx - mn ≤ epsilon))
    ∧ check_convergence [5, 5.0004, 5.0002] 0.001 = true
    ∧ check_convergence [5, 5.0004, 5.0002] 0.0001 = false := by
  refine ⟨fun h => by simp [check_convergence, h], fun h => ?_,
    by norm_num [check_convergence], by norm_num [check_convergence]⟩
  have hne : values ≠ [] := by
    intro e
    rw [e] at h
    simp at h
  obtain ⟨mx, hmx⟩ := exists_max?_of_ne_nil hne
  obtain ⟨mn, hmn⟩ := exists_min?_of_ne_nil hne
  obtain ⟨hmxm, hmxb⟩ := max?_eq_some_iff_lin.mp hmx
  obtain ⟨hmnm, hmnb⟩ := min?_eq_some_iff_lin.mp hmn
  refine ⟨mx, mn, hmx, hmn, hmxm, hmnm, fun b hb => ⟨hmnb b hb, hmxb b hb⟩, ?_⟩
  unfold check_convergence
  rw [if_neg (by omega)]
  rw [hmx, hmn]
  simp

/-- Witness for C6: the empty list is vacuously convergent. -/
theorem check_convergence_spec_witness : check_convergence [] 1 = true :=
  (check_convergence_spec [] 1).1 (by simp)

/-! ### The mode calculator -/

/-- For a non-empty dataset the frequency maximum of the mode computation
exists; it is attained by some element and bounds every element's count. -/
theorem exists_counts_max (data : List ℚ) (h : data ≠ []) :
    ∃ mc, (data.dedup.map (fun v => data.count v)).max? = some mc ∧
      (∃ v ∈ data, data.count v = mc) ∧ (∀ v ∈ data, data.count v ≤ mc) := by
  have hd : data.dedup ≠ [] := fun e => h ((List.dedup_eq_nil data).mp e)
  have hm : data.dedup.map (fun v => data.count v) ≠ [] := by
    simpa using hd
  obtain ⟨mc, hmc⟩ := exists_max?_of_ne_nil hm
  obtain ⟨hmem, hb⟩ := max?_eq_some_iff_lin.mp hmc
  obtain ⟨v, hv, hvc⟩ := List.mem_map.mp hmem
  refine ⟨mc, hmc, ⟨v, List.mem_dedup.mp hv, hvc⟩, ?_⟩
  intro w hw
  exact hb _ (List.mem_map.mpr ⟨w, List.mem_dedup.mpr hw, rfl⟩)

/-- C3: on a non-empty dataset the mode calculator returns the mean when
every value occurs exactly once, and otherwise the numerically smallest
value among those of maximal count; `[1, 1, 2, 2, 3] ↦ 1` and
`[1, 2, 3, 4] ↦ 5/2`. -/
theorem calculate_mode_spec (data : List ℚ) (hne : data ≠ []) :
    ((∀ v ∈ data, data.count v = 1) → calculate_mode data = calculate_mean data)
    ∧ ((∃ v ∈ data, data.count v ≠ 1) →
        calculate_mode data ∈ data
        ∧ (∀ w ∈ data, data.count w ≤ data.count (calculate_mode data))
        ∧ (∀ w ∈ data, data.count w = data.count (calculate_mode data) →
            calculate_mode data ≤ w))
    ∧ calculate_mode [1, 1, 2, 2, 3] = 1
    ∧ calculate_mode [1, 2, 3, 4] = 5 / 2 := by
  obtain ⟨mc, hmc, ⟨v₀, hv₀, hv₀c⟩, hub⟩ := exists_counts_max data hne
  refine ⟨?_, ?_,
    by norm_num [calculate_mode, calculate_mean,
      List.dedup_cons_of_mem, List.dedup_cons_of_not_mem],
    by norm_num [calculate_mode, calculate_mean,
      List.dedup_cons_of_mem, List.dedup_cons_of_not_mem]⟩
  · intro hall
    have h1 : mc = 1 := by rw [← hv₀c]; exact hall v₀ hv₀
    simp only [calculate_mode, hmc, if_pos h1]
  · rintro ⟨w₀, hw₀, hw₀c⟩
    have hmc1 : mc ≠ 1 := by
      intro e
      have h1 : data.count w₀ ≤ mc := hub w₀ hw₀
      have h2 : 0 < data.count w₀ := List.count_pos_iff.mpr hw₀
      omega
    have hv₀m : v₀ ∈ data.dedup.filter (fun v => decide (data.count v = mc)) :=
      List.mem_filter.mpr ⟨List.mem_dedup.mpr hv₀, by simp [hv₀c]⟩
    have hmo : data.dedup.filter (fun v => decide (data.count v = mc)) ≠ [] := by
      intro e
      rw [e] at hv₀m
      cases hv₀m
    obtain ⟨m, hm⟩ := exists_min?_of_ne_nil hmo
    obtain ⟨hmm, hmb⟩ := min?_eq_some_iff_lin.mp hm
    have hmode : calculate_mode data = m := by
      simp only [calculate_mode, hmc, if_neg hmc1, hm]
    have hmd : m ∈ data.dedup := (List.mem_filter.mp hmm).1
    have hmcnt : data.count m = mc := by
      have h2 := (List.mem_filter.mp hmm).2
      simpa using h2
    refine ⟨?_, ?_, ?_⟩
    · rw [hmode]; exact List.mem_dedup.mp hmd
    · intro w hw
      rw [hmode, hmcnt]
      exact hub w hw
    · intro w hw hwc
      rw [hmode]
      rw [hmode, hmcnt] at hwc
      exact hmb w (List.mem_filter.mpr ⟨List.mem_dedup.mpr hw, by simp [hwc]⟩)

/-- Witness for C3 at the tie-break example `[1, 1, 2, 2, 3]`. -/
theorem calculate_mode_spec_witness : calculate_mode [1, 1, 2, 2, 3] = 1 :=
  (calculate_mode_spec [1, 1, 2, 2, 3] (List.cons_ne_nil _ _)).2.2.1

/-- C7: on every non-empty dataset the fallible model of the mode
calculator succeeds (no exception escapes), returning exactly the value of
the total mode calculator — a real number. -/
theorem calculate_mode_total (data : List ℚ) (hne : data ≠ []) :
    calculate_mode_opt data = some (calculate_mode data) := by
  obtain ⟨mc, hmc, ⟨v₀, hv₀, hv₀c⟩, hub⟩ := exists_counts_max data hne
  have hlen : data.length ≠ 0 := fun e => hne (List.eq_nil_of_length_eq_zero e)
  by_cases h1 : mc = 1
  · simp only [calculate_mode_opt, calculate_mode, hmc, if_pos h1, calculate_mean_opt,
      if_neg hlen, calculate_mean]
  · have hv₀m : v₀ ∈ data.dedup.filter (fun v => decide (data.count v = mc)) :=
      List.mem_filter.mpr ⟨List.mem_dedup.mpr hv₀, by simp [hv₀c]⟩
    have hmo : data.dedup.filter (fun v => decide (data.count v = mc)) ≠ [] := by
      intro e
      rw [e] at hv₀m
      cases hv₀m
    obtain ⟨m, hm⟩ := exists_min?_of_ne_nil hmo
    simp only [calculate_mode_opt, calculate_mode, hmc, if_neg h1, hm]

/-- Witness for C7 at `[1, 2]`. -/
theorem calculate_mode_total_witness :
    calculate_mode_opt [1, 2] = some (calculate_mode [1, 2]) :=
  calculate_mode_total [1, 2] (List.cons_ne_nil _ _)

/-! ### Permutation invariance of the three calculators -/

theorem max?_eq_of_perm {α : Type*} [LinearOrder α] {l l' : List α} (p : l.Perm l') :
    l.max? = l'.max? := by
  cases e : l'.max? with
  | none =>
    have h := List.max?_eq_none_iff.mp e
    rw [List.max?_eq_none_iff]
    exact List.perm_nil.mp (h ▸ p)
  | some a =>
    rw [max?_eq_some_iff_lin] at e ⊢
    exact ⟨p.mem_iff.mpr e.1, fun b hb => e.2 b (p.mem_iff.mp hb)⟩

theorem min?_eq_of_perm {α : Type*} [LinearOrder α] {l l' : List α} (p : l.Perm l') :
    l.min? = l'.min? := by
  cases e : l'.min? with
  | none =>
    have h := List.min?_eq_none_iff.mp e
    rw [List.min?_eq_none_iff]
    exact List.perm_nil.mp (h ▸ p)
  | some a =>
    rw [min?_eq_some_iff_lin] at e ⊢
    exact ⟨p.mem_iff.mpr e.1, fun b hb => e.2 b (p.mem_iff.mp hb)⟩

theorem calculate_mean_perm {l l' : List ℚ} (p : l.Perm l') :
    calculate_mean l = calculate_mean l' := by
  unfold calculate_mean
  rw [p.sum_eq, p.length_eq]

theorem mergeSort_sorted_le (l : List ℚ) :
    List.Sorted (· ≤ ·) (l.mergeSort (fun a b => decide (a ≤ b))) := by
  have h := @List.sorted_mergeSort ℚ (fun a b => decide (a ≤ b))
    (fun a b c hab hbc => by
      simp only [decide_eq_true_eq] at hab hbc ⊢
      exact le_trans hab hbc)
    (fun a b => by rcases le_total a b with h | h <;> simp [h])
    l
  exact h.imp (fun hab => by simpa using hab)

theorem calculate_median_perm {l l' : List ℚ} (p : l.Perm l') :
    calculate_median l = calculate_median l' := by
  have hs : l.mergeSort (fun a b => decide (a ≤ b))
      = l'.mergeSort (fun a b => decide (a ≤ b)) :=
    List.eq_of_perm_of_sorted
      ((List.mergeSort_perm l _).trans (p.trans (List.mergeSort_perm l' _).symm))
      (mergeSort_sorted_le l) (mergeSort_sorted_le l')
  unfold calculate_median
  rw [hs]

theorem calculate_mode_perm {l l' : List ℚ} (p : l.Perm l') :
    calculate_mode l = calculate_mode l' := by
  have hcnt : ∀ v : ℚ, l.count v = l'.count v := fun v => p.count_eq v
  have hded : l.dedup.Perm l'.dedup := p.dedup
  have hmap : (l.dedup.map (fun v => l.count v)).Perm
      (l'.dedup.map (fun v => l'.count v)) := by
    have h1 : l'.dedup.map (fun v => l'.count v) = l'.dedup.map (fun v => l.count v) :=
      List.map_congr_left (fun a _ => (hcnt a).symm)
    rw [h1]
    exact hded.map _
  have hmax := max?_eq_of_perm hmap
  cases e : (l.dedup.map (fun v => l.count v)).max? with
  | none =>
    have e' : (l'.dedup.map (fun v => l'.count v)).max? = none := by rw [← hmax]; exact e
    simp only [calculate_mode, e, e']
    exact calculate_mean_perm p
  | some mc =>
    have e' : (l'.dedup.map (fun v => l'.count v)).max? = some mc := by rw [← hmax]; exact e
    simp only [calculate_mode, e, e']
    by_cases h1 : mc = 1
    · rw [if_pos h1, if_pos h1]
      exact calculate_mean_perm p
    · rw [if_neg h1, if_neg h1]
      have hfil : (l.dedup.filter (fun v => decide (l.count v = mc))).Perm
          (l'.dedup.filter (fun v => decide (l'.count v = mc))) := by
        have h2 : l'.dedup.filter (fun v => decide (l'.count v = mc))
            = l'.dedup.filter (fun v => decide (l.count v = mc)) := by
          apply List.filter_congr
          intro a _
          simp [hcnt a]
        rw [h2]
        exact hded.filter _
      have hmin := min?_eq_of_perm hfil
      rw [hmin]
      cases e2 : (l'.dedup.filter (fun v => decide (l'.count v = mc))).min? with
      | none => exact calculate_mean_perm p
      | some m => rfl

/-- C10: the three statistic calculators are permutation-invariant: a
reordered dataset yields the same mean, median and mode. -/
theorem statistics_perm_invariant (l l' : List ℚ) (p : l.Perm l') :
    calculate_mean l = calculate_mean l'
    ∧ calculate_median l = calculate_median l'
    ∧ calculate_mode l = calculate_mode l' :=
  ⟨calculate_mean_perm p, calculate_median_perm p, calculate_mode_perm p⟩

/-- Witness for C10 at the concrete reordering `[1, 2] ~ [2, 1]`. -/
theorem statistics_perm_invariant_witness :
    calculate_mean [1, 2] = calculate_mean [2, 1]
    ∧ calculate_median [1, 2] = calculate_median [2, 1]
    ∧ calculate_mode [1, 2] = calculate_mode [2, 1] :=
  statistics_perm_invariant [1, 2] [2, 1] (List.Perm.swap 2 1 [])

/-! ### The iteration engine -/

/-- Unfolding of one engine round on a non-empty dataset. -/
theorem engineStep_of_ne_nil (epsilon : Epsilon) (cur : List ℚ) (hist : List Triple)
    (h : cur ≠ []) :
    engineStep epsilon cur hist =
      if !stagnation_only epsilon
          && check_convergence (newTriple cur) (epsilonValue epsilon) then
        .done (.converged (calculate_mean (newTriple cur)) (hist ++ [newTriple cur]))
      else if check_stagnation (hist ++ [newTriple cur]) 1000 then
        .done (.stagnated (calculate_mean (newTriple cur))
          (truncateHist (hist ++ [newTriple cur])))
      else .next (newTriple cur) (hist ++ [newTriple cur]) := by
  unfold engineStep
  rw [if_neg (by simp [h])]
  rfl

/-- C2: each round appends the triple to the history and checks convergence
before stagnation; with a numeric epsilon a convergent triple terminates the
round at once — regardless of stagnation — returning the arithmetic mean of
the triple's components and the appended history unchanged; with the
stagnation-only sentinel the convergence predicate plays no part and the
round terminates only by stagnation. -/
theorem engineStep_order_spec (e : ℚ) (cur : List ℚ) (hist : List Triple) (h : cur ≠ []) :
    (check_convergence (newTriple cur) e = true →
      engineStep (.val e) cur hist =
        .done (.converged (calculate_mean (newTriple cur)) (hist ++ [newTriple cur])))
    ∧ (check_convergence (newTriple cur) e = false →
      engineStep (.val e) cur hist =
        if check_stagnation (hist ++ [newTriple cur]) 1000 then
          .done (.stagnated (calculate_mean (newTriple cur))
            (truncateHist (hist ++ [newTriple cur])))
        else .next (newTriple cur) (hist ++ [newTriple cur]))
    ∧ (engineStep .star cur hist =
        if check_stagnation (hist ++ [newTriple cur]) 1000 then
          .done (.stagnated (calculate_mean (newTriple cur))
            (truncateHist (hist ++ [newTriple cur])))
        else .next (newTriple cur) (hist ++ [newTriple cur])) := by
  refine ⟨fun hc => ?_, fun hc => ?_, ?_⟩
  · rw [engineStep_of_ne_nil _ _ _ h]
    simp [stagnation_only, epsilonValue, hc]
  · rw [engineStep_of_ne_nil _ _ _ h]
    simp [stagnation_only, epsilonValue, hc]
  · rw [engineStep_of_ne_nil _ _ _ h]
    simp [stagnation_only]

/-- Witness for C2: on the dataset `[5]` with epsilon 1 the round converges
at once with the appended history. -/
theorem engineStep_order_spec_witness :
    engineStep (.val 1) [5] [] =
      .done (.converged (calculate_mean (newTriple [5])) ([] ++ [newTriple [5]])) :=
  (engineStep_order_spec 1 [5] [] (List.cons_ne_nil _ _)).1
    (by norm_num [check_convergence, newTriple, calculate_statistics, calculate_mean,
      calculate_median, calculate_mode, List.mergeSort, List.dedup])

/-- C4 counterexample: with the non-positive epsilon 0 and no sentinel the
engine raises nothing: on the dataset `[5]` it returns a valid
(value, history) pair by convergence on the first iteration. -/
theorem epsilon_not_validated :
    equilibrium_statistic [5] (.val 0) 1 = some (.converged 5 [[5, 5, 5]])
    ∧ ¬(0 : ℚ) > 0 := by
  constructor
  · norm_num [equilibrium_statistic, runLoop, engineStep, newTriple, calculate_statistics,
      calculate_mean, calculate_median, calculate_mode, check_convergence, check_stagnation,
      stagnation_only, epsilonValue, List.mergeSort, List.dedup]
  · norm_num

/-- C4 amended: the engine raises (propagates, does not catch) on an empty
initial dataset, in any mode and with any fuel; it performs no epsilon
validation — with the non-positive epsilon 0 and no sentinel it still
returns a valid (value, history) pair. -/
theorem run_precondition_spec :
    (∀ (epsilon : Epsilon) (fuel : ℕ),
      equilibrium_statistic [] epsilon (fuel + 1) = some .raised)
    ∧ equilibrium_statistic [5] (.val 0) 1 = some (.converged 5 [[5, 5, 5]]) := by
  constructor
  · intro epsilon fuel
    simp [equilibrium_statistic, runLoop, engineStep]
  · norm_num [equilibrium_statistic, runLoop, engineStep, newTriple, calculate_statistics,
      calculate_mean, calculate_median, calculate_mode, check_convergence, check_stagnation,
      stagnation_only, epsilonValue, List.mergeSort, List.dedup]

/-- Loop `runLoop` is the first projection of the instrumented loop. -/
theorem runLoopI_fst (epsilon : Epsilon) (fuel : ℕ) :
    ∀ (cur : List ℚ) (hist : List Triple) (iter : ℕ),
      runLoop epsilon fuel cur hist = (runLoopI epsilon fuel cur hist iter).map Prod.fst := by
  induction fuel with
  | zero => intro cur hist iter; rfl
  | succ n ih =>
    intro cur hist iter
    unfold runLoop runLoopI
    cases e : engineStep epsilon cur hist with
    | done o => cases o <;> rfl
    | next d h => exact ih d h (iter + 1)

/-- Exhaustive description of one engine round. -/
theorem engineStep_inv (epsilon : Epsilon) (cur : List ℚ) (hist : List Triple) :
    (engineStep epsilon cur hist = .done .raised ∧ cur = [])
    ∨ cur ≠ [] ∧ (
      engineStep epsilon cur hist
        = .done (.converged (calculate_mean (newTriple cur)) (hist ++ [newTriple cur]))
      ∨ (engineStep epsilon cur hist
          = .done (.stagnated (calculate_mean (newTriple cur))
              (truncateHist (hist ++ [newTriple cur])))
          ∧ check_stagnation (hist ++ [newTriple cur]) 1000 = true)
      ∨ (engineStep epsilon cur hist = .next (newTriple cur) (hist ++ [newTriple cur])
          ∧ check_stagnation (hist ++ [newTriple cur]) 1000 = false)) := by
  by_cases hc : cur = []
  · left
    subst hc
    exact ⟨rfl, rfl⟩
  · right
    refine ⟨hc, ?_⟩
    rw [engineStep_of_ne_nil _ _ _ hc]
    by_cases h1 : (!stagnation_only epsilon
        && check_convergence (newTriple cur) (epsilonValue epsilon)) = true
    · left
      rw [if_pos h1]
    · rw [if_neg h1]
      cases h2 : check_stagnation (hist ++ [newTriple cur]) 1000 with
      | true =>
        right; left
        exact ⟨rfl, rfl⟩
      | false =>
        right; right
        exact ⟨rfl, rfl⟩

/-- Core invariant of the instrumented loop: starting from a history whose
length equals the iteration counter, a convergence return carries the full
history itself, and a stagnation return carries the truncation of a
then-stagnated full history; in both cases the full history has one entry
per iteration. -/
theorem runLoopI_spec (epsilon : Epsilon) (fuel : ℕ) :
    ∀ (cur : List ℚ) (hist : List Triple) (iter : ℕ),
      hist.length = iter →
      ∀ o N full, runLoopI epsilon fuel cur hist iter = some (o, N, full) →
        (∀ v h, o = .converged v h → full.length = N ∧ h = full)
        ∧ (∀ v h, o = .stagnated v h →
            full.length = N ∧ check_stagnation full 1000 = true ∧ h = truncateHist full) := by
  induction fuel with
  | zero =>
    intro cur hist iter _ o N full he
    cases he
  | succ n ih =>
    intro cur hist iter hlen o N full he
    unfold runLoopI at he
    rcases engineStep_inv epsilon cur hist with ⟨he1, -⟩ |
      ⟨-, he1 | ⟨he1, hs⟩ | ⟨he1, -⟩⟩ <;> rw [he1] at he
    · simp only [Option.some.injEq, Prod.mk.injEq] at he
      obtain ⟨h1, -, -⟩ := he
      subst h1
      exact ⟨fun v h hx => (nomatch hx), fun v h hx => (nomatch hx)⟩
    · simp only [Option.some.injEq, Prod.mk.injEq] at he
      obtain ⟨h1, h2, h3⟩ := he
      subst h1; subst h2; subst h3
      constructor
      · intro v h hx
        obtain ⟨-, h5⟩ := Outcome.converged.inj hx.symm
        subst h5
        constructor
        · rw [List.length_append, List.length_cons, List.length_nil, hlen]
        · rfl
      · intro v h hx
        cases hx
    · simp only [Option.some.injEq, Prod.mk.injEq] at he
      obtain ⟨h1, h2, h3⟩ := he
      subst h1; subst h2; subst h3
      constructor
      · intro v h hx
        cases hx
      · intro v h hx
        obtain ⟨-, h5⟩ := Outcome.stagnated.inj hx.symm
        subst h5
        refine ⟨?_, hs, rfl⟩
        rw [List.length_append, List.length_cons, List.length_nil, hlen]
    · refine ih (newTriple cur) (hist ++ [newTriple cur]) (iter + 1) ?_ o N full he
      rw [List.length_append, List.length_cons, List.length_nil, hlen]

/-- The last entry of a nontrivial `take` is an indexed entry of the list. -/
theorem getLast?_take {α : Type*} (l : List α) (k : ℕ) (hk : k < l.length) :
    (l.take (k + 1)).getLast? = l[k]? := by
  rw [List.getLast?_eq_getElem?, List.length_take]
  have h1 : min (k + 1) l.length - 1 = k := by omega
  rw [h1]
  exact List.getElem?_take_of_lt (by omega)

/-- C1: `equilibrium_statistic` is the projection of the instrumented loop;
a convergence termination returns the accumulated history unchanged, with
one entry per iteration; a stagnation termination after `N` iterations
(`N ≥ 1000`) returns the first `N - 999` entries of the accumulated
history, whose last entry is the first of the 1000 identical trailing
triples and hence the repeated triple itself (the last entry of the full
history). -/
theorem equilibrium_history_law (epsilon : Epsilon) (init : List ℚ) (fuel : ℕ) :
    (equilibrium_statistic init epsilon fuel
      = (runLoopI epsilon fuel init [] 0).map Prod.fst)
    ∧ (∀ v h N full, runLoopI epsilon fuel init [] 0 = some (.converged v h, N, full) →
        h = full ∧ h.length = N)
    ∧ (∀ v h N full, runLoopI epsilon fuel init [] 0 = some (.stagnated v h, N, full) →
        full.length = N ∧ 1000 ≤ N ∧ h = full.take (N - 999) ∧ h.length = N - 999
        ∧ ∃ t, h.getLast? = some t ∧ full.getLast? = some t
            ∧ ∀ x ∈ full.drop (N - 1000), x = t) := by
  refine ⟨runLoopI_fst epsilon fuel init [] 0, ?_, ?_⟩
  · intro v h N full he
    obtain ⟨hlenN, hfull⟩ :=
      (runLoopI_spec epsilon fuel init [] 0 rfl _ N full he).1 v h rfl
    exact ⟨hfull, hfull ▸ hlenN⟩
  · intro v h N full he
    obtain ⟨hlenN, hstag, htr⟩ :=
      (runLoopI_spec epsilon fuel init [] 0 rfl _ N full he).2 v h rfl
    obtain ⟨hge, t, ht⟩ := (stagnation_char full).mp hstag
    subst hlenN
    have htrunc : h = full.take (full.length - 999) := by
      rw [htr]
      unfold truncateHist
      rw [if_pos hge]
    have hlen_h : h.length = full.length - 999 := by
      rw [htrunc, List.length_take]
      omega
    have hgd : ∀ j, j < 1000 → full[full.length - 1000 + j]? = some t := by
      intro j hj
      have hjlt : j < (full.drop (full.length - 1000)).length := by
        rw [List.length_drop]
        omega
      rw [← List.getElem?_drop]
      rw [List.getElem?_eq_getElem hjlt]
      exact congrArg some (ht _ (List.getElem_mem hjlt))
    refine ⟨rfl, hge, htrunc, hlen_h, t, ?_, ?_, ht⟩
    · have h3 : full.length - 999 = (full.length - 1000) + 1 := by omega
      rw [htrunc, h3, getLast?_take _ _ (by omega)]
      have h4 := hgd 0 (by omega)
      rw [Nat.add_zero] at h4
      exact h4
    · rw [List.getLast?_eq_getElem?]
      have h2 : full.length - 1 = full.length - 1000 + 999 := by omega
      rw [h2]
      exact hgd 999 (by omega)

/-- Witness for C1 on the one-iteration convergent run on `[5]`: the
returned history is the full history of length 1. -/
theorem equilibrium_history_law_witness :
    [[(5 : ℚ), 5, 5]] = [[(5 : ℚ), 5, 5]]
    ∧ ([[(5 : ℚ), 5, 5]] : List Triple).length = 1 :=
  (equilibrium_history_law (.val 1) [5] 1).2.1 5 [[5, 5, 5]] 1 [[5, 5, 5]]
    (by norm_num [runLoopI, engineStep, newTriple, calculate_statistics, calculate_mean,
      calculate_median, calculate_mode, check_convergence, check_stagnation,
      stagnation_only, epsilonValue, List.mergeSort, List.dedup])

/-! ### Fixed points and forced stagnation -/

theorem trailingRun_le_length (d : Triple) (l : List Triple) :
    trailingRun d l ≤ l.length := by
  induction l with
  | nil => exact Nat.le_refl 0
  | cons a l ih =>
    unfold trailingRun
    by_cases h : a = d
    · rw [if_pos h]
      exact Nat.succ_le_succ ih
    · rw [if_neg h]
      exact Nat.zero_le _

theorem take_eq_of_trailingRun (d : Triple) (k : ℕ) :
    ∀ l : List Triple, k ≤ trailingRun d l → ∀ x ∈ l.take k, x = d := by
  induction k with
  | zero =>
    intro l _ x hx
    simp at hx
  | succ j ih =>
    intro l hk x hx
    cases l with
    | nil => simp at hx
    | cons a l' =>
      have had : a = d := by
        by_contra hne
        unfold trailingRun at hk
        rw [if_neg hne] at hk
        omega
      rw [List.take_succ_cons] at hx
      rcases List.mem_cons.mp hx with h | h
      · rw [h]; exact had
      · refine ih l' ?_ x h
        unfold trailingRun at hk
        rw [if_pos had] at hk
        omega

theorem trailingRun_cons_self (d : Triple) (l : List Triple) :
    trailingRun d (d :: l) = trailingRun d l + 1 := by
  simp [trailingRun]

theorem trailingCount_append (d : Triple) (h : List Triple) :
    trailingCount d (h ++ [d]) = trailingCount d h + 1 := by
  unfold trailingCount
  rw [List.reverse_append]
  simp only [List.reverse_cons, List.reverse_nil, List.nil_append, List.singleton_append]
  exact trailingRun_cons_self d h.reverse

/-- Once 1000 trailing entries equal `d`, the stagnation predicate holds. -/
theorem check_stagnation_of_trailing (d : Triple) (h : List Triple)
    (hc : 1000 ≤ trailingCount d h) :
    check_stagnation h 1000 = true := by
  have hlen : 1000 ≤ h.length := by
    have hb := trailingRun_le_length d h.reverse
    unfold trailingCount at hc
    rw [List.length_reverse] at hb
    omega
  rw [stagnation_char]
  refine ⟨hlen, d, ?_⟩
  intro x hx
  have hxr : x ∈ (h.drop (h.length - 1000)).reverse := List.mem_reverse.mpr hx
  rw [List.reverse_drop] at hxr
  have h1000 : h.length - (h.length - 1000) = 1000 := by omega
  rw [h1000] at hxr
  exact take_eq_of_trailingRun d 1000 h.reverse hc x hxr

theorem runLoop_succ_done {epsilon : Epsilon} {fuel : ℕ} {cur : List ℚ}
    {hist : List Triple} {o : Outcome}
    (hstep : engineStep epsilon cur hist = .done o) :
    runLoop epsilon (fuel + 1) cur hist = some o := by
  simp only [runLoop]
  rw [hstep]

theorem runLoop_succ_next {epsilon : Epsilon} {fuel : ℕ} {cur : List ℚ}
    {hist : List Triple} {d : List ℚ} {h : List Triple}
    (hstep : engineStep epsilon cur hist = .next d h) :
    runLoop epsilon (fuel + 1) cur hist = runLoop epsilon fuel d h := by
  simp only [runLoop]
  rw [hstep]

/-- At an exact fixed point a round either terminates or appends `d` and
continues with `d`, the stagnation check having failed. -/
theorem fix_step (epsilon : Epsilon) (d : List ℚ) (hne : d ≠ [])
    (hfix : newTriple d = d) (hist : List Triple) :
    (engineStep epsilon d hist = .next d (hist ++ [d])
      ∧ check_stagnation (hist ++ [d]) 1000 = false)
    ∨ (∃ v h, engineStep epsilon d hist = .done (.converged v h))
    ∨ (∃ v h, engineStep epsilon d hist = .done (.stagnated v h)) := by
  rcases engineStep_inv epsilon d hist with ⟨-, hc⟩ | ⟨-, he | ⟨he, -⟩ | ⟨he, hs⟩⟩
  · exact absurd hc hne
  · right; left; exact ⟨_, _, he⟩
  · right; right; exact ⟨_, _, he⟩
  · left
    rw [hfix] at he hs
    exact ⟨he, hs⟩

/-- At an exact fixed point the loop returns within `fuel + 1` rounds as
soon as `fuel` plus the trailing run already in the history reaches 999. -/
theorem fix_terminates (epsilon : Epsilon) (d : List ℚ) (hne : d ≠ [])
    (hfix : newTriple d = d) (fuel : ℕ) :
    ∀ hist : List Triple, 999 ≤ fuel + trailingCount d hist →
      ∃ v h, runLoop epsilon (fuel + 1) d hist = some (.converged v h)
        ∨ runLoop epsilon (fuel + 1) d hist = some (.stagnated v h) := by
  induction fuel with
  | zero =>
    intro hist htc
    rcases fix_step epsilon d hne hfix hist with ⟨hstep, hs⟩ | ⟨v, h, hstep⟩ | ⟨v, h, hstep⟩
    · exfalso
      have h1 : 1000 ≤ trailingCount d (hist ++ [d]) := by
        rw [trailingCount_append]
        omega
      rw [check_stagnation_of_trailing d _ h1] at hs
      cases hs
    · exact ⟨v, h, Or.inl (runLoop_succ_done hstep)⟩
    · exact ⟨v, h, Or.inr (runLoop_succ_done hstep)⟩
  | succ n ih =>
    intro hist htc
    rcases fix_step epsilon d hne hfix hist with ⟨hstep, -⟩ | ⟨v, h, hstep⟩ | ⟨v, h, hstep⟩
    · have h9 : 999 ≤ n + trailingCount d (hist ++ [d]) := by
        rw [trailingCount_append]
        omega
      obtain ⟨v, h, hor⟩ := ih (hist ++ [d]) h9
      exact ⟨v, h, by rw [runLoop_succ_next hstep]; exact hor⟩
    · exact ⟨v, h, Or.inl (runLoop_succ_done hstep)⟩
    · exact ⟨v, h, Or.inr (runLoop_succ_done hstep)⟩

/-- C9: once the produced triple equals the current dataset exactly, every
round either terminates or reproduces the same triple and continues with
it; in any mode the loop then returns within at most 1000 further
iterations, because stagnation must trigger once 1000 identical
consecutive triples have accumulated. -/
theorem fixed_point_termination (epsilon : Epsilon) (d : List ℚ) (hne : d ≠ [])
    (hfix : newTriple d = d) :
    (∀ hist, engineStep epsilon d hist = .next d (hist ++ [d])
      ∨ (∃ v h, engineStep epsilon d hist = .done (.converged v h))
      ∨ (∃ v h, engineStep epsilon d hist = .done (.stagnated v h)))
    ∧ (∀ hist, ∃ v h, runLoop epsilon 1000 d hist = some (.converged v h)
        ∨ runLoop epsilon 1000 d hist = some (.stagnated v h)) := by
  constructor
  · intro hist
    rcases fix_step epsilon d hne hfix hist with ⟨h1, -⟩ | h | h
    · exact Or.inl h1
    · exact Or.inr (Or.inl h)
    · exact Or.inr (Or.inr h)
  · intro hist
    exact fix_terminates epsilon d hne hfix 999 hist (by omega)

/-- Witness for C9 at the fixed point `[5, 5, 5]` with epsilon 1. -/
theorem fixed_point_termination_witness :
    ∃ v h, runLoop (.val 1) 1000 [5, 5, 5] [] = some (.converged v h)
      ∨ runLoop (.val 1) 1000 [5, 5, 5] [] = some (.stagnated v h) :=
  (fixed_point_termination (.val 1) [5, 5, 5] (List.cons_ne_nil _ _)
    (by norm_num [newTriple, calculate_statistics, calculate_mean, calculate_median,
      calculate_mode, List.mergeSort, List.dedup_cons_of_mem, List.dedup_cons_of_not_mem])).2 []

/-! ### Constant datasets -/

theorem check_stagnation_short {h : List Triple} (hl : h.length < 1000) :
    check_stagnation h 1000 = false := by
  unfold check_stagnation
  rw [if_pos hl]

/-- One round in stagnation-only mode: stagnate or continue. -/
theorem engineStep_star (cur : List ℚ) (hist : List Triple) (h : cur ≠ []) :
    engineStep .star cur hist =
      if check_stagnation (hist ++ [newTriple cur]) 1000 then
        .done (.stagnated (calculate_mean (newTriple cur))
          (truncateHist (hist ++ [newTriple cur])))
      else .next (newTriple cur) (hist ++ [newTriple cur]) := by
  rw [engineStep_of_ne_nil _ _ _ h]
  simp [stagnation_only]

theorem calculate_mean_replicate {n : ℕ} (hn : 0 < n) (c : ℚ) :
    calculate_mean (List.replicate n c) = c := by
  unfold calculate_mean
  rw [List.sum_replicate, List.length_replicate, nsmul_eq_mul]
  have hne : (n : ℚ) ≠ 0 := Nat.cast_ne_zero.mpr (by omega)
  rw [mul_comm, mul_div_assoc, div_self hne, mul_one]

theorem mergeSort_replicate (n : ℕ) (c : ℚ) :
    (List.replicate n c).mergeSort (fun a b => decide (a ≤ b)) = List.replicate n c := by
  have hp := List.mergeSort_perm (List.replicate n c) (fun a b => decide (a ≤ b))
  rw [List.eq_replicate_iff]
  constructor
  · rw [hp.length_eq, List.length_replicate]
  · intro b hb
    exact List.eq_of_mem_replicate (hp.mem_iff.mp hb)

theorem calculate_median_replicate {n : ℕ} (hn : 0 < n) (c : ℚ) :
    calculate_median (List.replicate n c) = c := by
  simp only [calculate_median]
  rw [mergeSort_replicate, List.length_replicate]
  have hget : ∀ i, i < n → (List.replicate n c).getD i 0 = c := by
    intro i hi
    rw [List.getD_eq_getElem?_getD, List.getElem?_replicate, if_pos hi]
    rfl
  by_cases hodd : n % 2 = 1
  · rw [if_pos hodd, hget _ (by omega)]
  · rw [if_neg hodd, hget _ (by omega), hget _ (by omega)]
    ring

theorem calculate_mode_replicate {n : ℕ} (hn : 0 < n) (c : ℚ) :
    calculate_mode (List.replicate n c) = c := by
  have hded : (List.replicate n c).dedup = [c] := List.replicate_dedup (by omega)
  have hcnt : (List.replicate n c).count c = n := List.count_replicate_self c n
  have hmax : ([n] : List ℕ).max? = some n := rfl
  simp only [calculate_mode, hded, List.map_cons, List.map_nil, hcnt, hmax]
  by_cases h1 : n = 1
  · rw [if_pos h1]
    exact calculate_mean_replicate hn c
  · rw [if_neg h1]
    have hfil : ([c].filter (fun v => decide ((List.replicate n c).count v = n))) = [c] := by
      simp [hcnt]
    rw [hfil]
    rfl

theorem newTriple_replicate {n : ℕ} (hn : 0 < n) (c : ℚ) :
    newTriple (List.replicate n c) = [c, c, c] := by
  unfold newTriple calculate_statistics
  rw [calculate_mean_replicate hn, calculate_median_replicate hn, calculate_mode_replicate hn]

theorem calculate_mean_three (c : ℚ) : calculate_mean [c, c, c] = c := by
  have h3 : List.replicate 3 c = [c, c, c] := rfl
  rw [← h3]
  exact calculate_mean_replicate (by omega) c

theorem newTriple_three (c : ℚ) : newTriple [c, c, c] = [c, c, c] := by
  have h3 : List.replicate 3 c = [c, c, c] := rfl
  rw [← h3]
  rw [newTriple_replicate (by omega : 0 < 3) c]
  exact h3.symm

/-- In stagnation-only mode, starting at the triple `[c, c, c]` with `k`
identical history entries, the run stagnates once the history reaches 1000
entries, returning value `c` and the truncated one-entry history. -/
theorem star_const_run (c : ℚ) (fuel : ℕ) :
    ∀ k : ℕ, k ≤ 999 → 1000 - k ≤ fuel →
      runLoop .star fuel [c, c, c] (List.replicate k [c, c, c])
        = some (.stagnated c [[c, c, c]]) := by
  induction fuel with
  | zero =>
    intro k hk hf
    exact absurd hf (by omega)
  | succ m ih =>
    intro k hk hf
    have hstep := engineStep_star [c, c, c] (List.replicate k [c, c, c]) (List.cons_ne_nil _ _)
    rw [newTriple_three, ← List.replicate_succ'] at hstep
    by_cases hk9 : k = 999
    · subst hk9
      have h1000 : (999 : ℕ) + 1 = 1000 := rfl
      rw [h1000] at hstep
      have hstag : check_stagnation (List.replicate 1000 [c, c, c]) 1000 = true := by
        rw [stagnation_char]
        refine ⟨by rw [List.length_replicate], [c, c, c], ?_⟩
        intro x hx
        exact List.eq_of_mem_replicate (List.mem_of_mem_drop hx)
      rw [if_pos hstag, calculate_mean_three] at hstep
      have htr : truncateHist (List.replicate 1000 [c, c, c]) = [[c, c, c]] := by
        unfold truncateHist
        rw [List.length_replicate, if_pos (by omega)]
        rw [List.take_replicate]
        norm_num
      rw [htr] at hstep
      exact runLoop_succ_done hstep
    · have hsf : check_stagnation (List.replicate (k + 1) [c, c, c]) 1000 = false :=
        check_stagnation_short (by rw [List.length_replicate]; omega)
      rw [if_neg (by simp [hsf])] at hstep
      rw [runLoop_succ_next hstep]
      exact ih (k + 1) (by omega) (by omega)

/-- C8 counterexample: in stagnation-only mode a constant dataset does NOT
terminate on iteration 1 — the first round continues, and one unit of fuel
is exhausted without a result. -/
theorem stagnation_not_iteration_one :
    engineStep .star [5] [] = .next [5, 5, 5] [[5, 5, 5]]
    ∧ equilibrium_statistic [5] .star 1 = none := by
  constructor
  · norm_num [engineStep, newTriple, calculate_statistics, calculate_mean, calculate_median,
      calculate_mode, check_stagnation, stagnation_only, List.mergeSort, List.dedup]
  · norm_num [equilibrium_statistic, runLoop, engineStep, newTriple, calculate_statistics,
      calculate_mean, calculate_median, calculate_mode, check_stagnation, stagnation_only,
      List.mergeSort, List.dedup]

/-- C8 amended: on a non-empty constant dataset `[c, ..., c]` the first
iteration triple is exactly `(c, c, c)`; with any numeric epsilon ≥ 0 the
run converges on iteration 1 with final value `c`; in stagnation-only mode
the run instead stagnates at iteration 1000 with final value `c` and
truncated history `[[c, c, c]]`. -/
theorem constant_dataset_spec (c : ℚ) (n : ℕ) (hn : 0 < n) (e : ℚ) (he : 0 ≤ e) :
    newTriple (List.replicate n c) = [c, c, c]
    ∧ (∀ fuel, equilibrium_statistic (List.replicate n c) (.val e) (fuel + 1)
        = some (.converged c [[c, c, c]]))
    ∧ (∀ fuel, 1000 ≤ fuel →
        equilibrium_statistic (List.replicate n c) .star fuel
          = some (.stagnated c [[c, c, c]])) := by
  have hne : List.replicate n c ≠ [] := by
    rw [Ne, List.replicate_eq_nil_iff]
    omega
  have hT := newTriple_replicate hn c
  refine ⟨hT, ?_, ?_⟩
  · intro fuel
    have hconv : check_convergence [c, c, c] e = true := by
      unfold check_convergence
      rw [if_neg (by norm_num)]
      have hmx : ([c, c, c] : List ℚ).max? = some c := by
        simp [List.max?_cons', List.foldl]
      have hmn : ([c, c, c] : List ℚ).min? = some c := by
        simp [List.min?_cons', List.foldl]
      rw [hmx, hmn]
      simpa using he
    have hstep := engineStep_of_ne_nil (.val e) (List.replicate n c) [] hne
    rw [hT] at hstep
    simp only [stagnation_only, epsilonValue, Bool.not_false, Bool.true_and, hconv,
      if_true, List.nil_append, calculate_mean_three] at hstep
    exact runLoop_succ_done hstep
  · intro fuel hfuel
    obtain ⟨f, rfl⟩ : ∃ f, fuel = f + 1 := ⟨fuel - 1, by omega⟩
    have hstep := engineStep_star (List.replicate n c) [] hne
    rw [hT, List.nil_append] at hstep
    have hsf : check_stagnation [[c, c, c]] 1000 = false :=
      check_stagnation_short (by norm_num)
    rw [if_neg (by simp [hsf])] at hstep
    unfold equilibrium_statistic
    rw [runLoop_succ_next hstep]
    have hrep1 : ([[c, c, c]] : List Triple) = List.replicate 1 [c, c, c] := rfl
    rw [hrep1]
    exact star_const_run c f 1 (by omega) (by omega)

/-- Witness for C8 (amended) at `c = 5`, `n = 1`, `e = 1`. -/
theorem constant_dataset_spec_witness :
    newTriple (List.replicate 1 (5 : ℚ)) = [5, 5, 5]
    ∧ (∀ fuel, equilibrium_statistic (List.replicate 1 (5 : ℚ)) (.val 1) (fuel + 1)
        = some (.converged 5 [[5, 5, 5]]))
    ∧ (∀ fuel, 1000 ≤ fuel →
        equilibrium_statistic (List.replicate 1 (5 : ℚ)) .star fuel
          = some (.stagnated 5 [[5, 5, 5]])) :=
  constant_dataset_spec 5 1 (by norm_num) 1 (by norm_num)

end EquilibriumStatistic
